import Mathlib

/-!
Verification of the website content-discovery pipeline implemented in
`src/api/research/build-kb.ts` (the full second version of the file, which
contains the discovery engine).  JavaScript strings are modelled as lists of
characters (`Str`); the regular-expression scans of the source are modelled
as explicit character scanners with the same matching semantics; the WHATWG
`URL` constructor is modelled for the reachable cases (ASCII reg-name hosts,
optional port, userinfo, path/query/fragment delimiters); `fetch` results
are passed in explicitly, with `Option.none` standing for a thrown
network/timeout error, mirroring the `try { ... } catch { /* ignore */ }`
structure of the handler.
-/

/-- JavaScript strings are modelled as lists of characters. -/
abbrev Str := List Char

/-- Characters trimmed by `String.prototype.trim` (ASCII whitespace range;
the JS method also trims some Unicode space characters, which do not occur
in any code path modelled here). -/
def wsChar (c : Char) : Bool :=
  c.toNat == 9 || c.toNat == 10 || c.toNat == 11 || c.toNat == 12 || c.toNat == 13 || c.toNat == 32

/-- Model of `s.trim()`: drop whitespace from both ends. -/
def jsTrim (l : Str) : Str :=
  ((l.dropWhile wsChar).reverse.dropWhile wsChar).reverse

/-- Model of `s.toLowerCase()` restricted to ASCII (the only case exercised
by the source: hostnames and URL keyword matching). `Char.toLower` lowers
exactly the ASCII range A-Z. -/
def lowerStr (l : Str) : Str := l.map Char.toLower

/-- Contiguous substring test on character lists: `pat` is a prefix of some
suffix of `s`. -/
def strContains : Str → Str → Bool
  | [], pat => pat.isPrefixOf ([] : Str)
  | c :: t, pat => pat.isPrefixOf (c :: t) || strContains t pat

/-- Model of the JS substring test `/pat/.test(s)` for a literal pattern:
`pat` occurs contiguously inside `s`. -/
def hasSub (s pat : Str) : Bool := strContains s pat

/-- Scoring heuristic of `rankTopK` (`build-kb.ts` lines 219-231): the URL is
lowercased once and each keyword pattern that matches adds its weight, in the
source's textual order (careers/jobs before contact). `/\/$/` is the
trailing-slash test and `/index\.html?$/` matches a trailing `index.htm` or
`index.html`. -/
def score (u : Str) : Nat :=
  let s := lowerStr u
  (if "/".toList.isSuffixOf s || "index.htm".toList.isSuffixOf s || "index.html".toList.isSuffixOf s then 10 else 0)
  + (if hasSub s "about".toList then 8 else 0)
  + (if hasSub s "product".toList || hasSub s "solutions".toList then 8 else 0)
  + (if hasSub s "pricing".toList then 7 else 0)
  + (if hasSub s "blog".toList || hasSub s "news".toList || hasSub s "stories".toList then 5 else 0)
  + (if hasSub s "docs".toList || hasSub s "help".toList || hasSub s "support".toList then 5 else 0)
  + (if hasSub s "careers".toList || hasSub s "jobs".toList then 2 else 0)
  + (if hasSub s "contact".toList then 4 else 0)

/-- The specification's weight table (spec section 4.7), written in the
spec's order (contact row before careers/jobs row) as a sum over all
matching patterns. -/
def scoreSpec (u : Str) : Nat :=
  let s := lowerStr u
  (if "/".toList.isSuffixOf s || "index.htm".toList.isSuffixOf s || "index.html".toList.isSuffixOf s then 10 else 0)
  + (if hasSub s "about".toList then 8 else 0)
  + (if hasSub s "product".toList || hasSub s "solutions".toList then 8 else 0)
  + (if hasSub s "pricing".toList then 7 else 0)
  + (if hasSub s "blog".toList || hasSub s "news".toList || hasSub s "stories".toList then 5 else 0)
  + (if hasSub s "docs".toList || hasSub s "help".toList || hasSub s "support".toList then 5 else 0)
  + (if hasSub s "contact".toList then 4 else 0)
  + (if hasSub s "careers".toList || hasSub s "jobs".toList then 2 else 0)

/-- Worker for `dedupFirst`: `seen` is the set of elements already emitted,
mirroring the contents of the JS `Set` while iterating. -/
def dedupGo (seen : List Str) : List Str → List Str
  | [] => []
  | x :: xs => if seen.contains x then dedupGo seen xs else x :: dedupGo (x :: seen) xs

/-- Model of `Array.from(new Set(urls))`: deduplicate keeping the first
occurrence of each element, in order. -/
def dedupFirst (l : List Str) : List Str := dedupGo [] l

/-- One step of the stable descending insertion sort modelling the ES2019+
stable `Array.prototype.sort` with comparator `(a, b) => score(b) - score(a)`:
`x` is placed after every earlier element of strictly greater score and
before the first element of smaller-or-equal score. -/
def insertDesc (x : Str) : List Str → List Str
  | [] => [x]
  | y :: ys => if score x < score y then y :: insertDesc x ys else x :: y :: ys

/-- Stable sort by descending `score` (insertion sort), the unique stable
order produced by the source's `.sort((a, b) => score(b) - score(a))`. -/
def sortByScoreDesc : List Str → List Str
  | [] => []
  | x :: xs => insertDesc x (sortByScoreDesc xs)

/-- Model of `rankTopK` (`build-kb.ts` lines 218-233): deduplicate (first
occurrence wins), stable-sort by descending score, truncate to `k`. -/
def rankTopK (urls : List Str) (k : Nat) : List Str :=
  (sortByScoreDesc (dedupFirst urls)).take k

/-- Reason tag assigned in the handler's `.map` over the ranked URLs
(`build-kb.ts` lines 326-337); the chained conditional expression of the
source, tested on the original (non-lowercased) URL. -/
def reasonFor (u : Str) : Str :=
  if hasSub u "about".toList then "about".toList
  else if hasSub u "pricing".toList then "pricing".toList
  else if hasSub u "product".toList || hasSub u "solutions".toList then "products/solutions".toList
  else if hasSub u "blog".toList || hasSub u "news".toList || hasSub u "stories".toList then "blog/news".toList
  else if hasSub u "docs".toList || hasSub u "help".toList || hasSub u "support".toList then "docs/help".toList
  else if hasSub u "careers".toList || hasSub u "jobs".toList then "careers".toList
  else if hasSub u "contact".toList then "contact".toList
  else if "/".toList.isSuffixOf u then "homepage".toList
  else "page".toList

/-- The specification's formulation of reason tagging (spec section 4.7):
an ordered priority list of categories, the first matching category wins,
falling back to the generic tag `page`. -/
def reasonRules : List ((Str → Bool) × Str) :=
  [ (fun u => hasSub u "about".toList, "about".toList),
    (fun u => hasSub u "pricing".toList, "pricing".toList),
    (fun u => hasSub u "product".toList || hasSub u "solutions".toList, "products/solutions".toList),
    (fun u => hasSub u "blog".toList || hasSub u "news".toList || hasSub u "stories".toList, "blog/news".toList),
    (fun u => hasSub u "docs".toList || hasSub u "help".toList || hasSub u "support".toList, "docs/help".toList),
    (fun u => hasSub u "careers".toList || hasSub u "jobs".toList, "careers".toList),
    (fun u => hasSub u "contact".toList, "contact".toList),
    (fun u => "/".toList.isSuffixOf u, "homepage".toList) ]

/-- First matching category of the priority list, defaulting to `page`. -/
def reasonSpec (u : Str) : Str :=
  ((reasonRules.find? (fun p => p.1 u)).map (fun p => p.2)).getD "page".toList

/-- Characters that terminate the authority component of a special-scheme
URL in the WHATWG parser (`/`, `?`, `#`, and `\` which special schemes treat
like `/`). -/
def authEnd (c : Char) : Bool := c == '/' || c == '?' || c == '#' || c == '\\'

/-- Code points the WHATWG parser forbids inside a reg-name host.  `%` is
also excluded here because the model does not implement percent-decoding of
hosts (no code path modelled by the claims uses percent-encoded hosts). -/
def badHostChars : Str := ['#', '/', ':', '?', '@', '[', '\\', ']', '^', '|', '<', '>', '%', '"']

/-- Validity of one character of a reg-name host in this model: printable
ASCII and not a forbidden host code point. -/
def hostCharOk (c : Char) : Bool := 32 < c.toNat && c.toNat < 127 && !(badHostChars.contains c)

/-- Numeric value of a digit string (used only to validate the port). -/
def digitsVal (l : Str) : Nat := l.foldl (fun a c => a * 10 + (c.toNat - 48)) 0

/-- Model of the authority/host part of the WHATWG `URL` parser for
`http`/`https` URLs with an ASCII reg-name host: the authority extends to
the first `/`, `?`, `#` or `\`; userinfo up to the last `@` is dropped; an
optional `:port` (digits, at most 65535) is split off; the host must be a
nonempty string of allowed characters and is lowercased.  Returns
`(protocol, hostname)` as the `url.protocol` / `url.hostname` getters do.
IPv6 bracket hosts, percent-encoded hosts and non-ASCII (IDNA) hosts are
outside the model and are rejected. -/
def parseAuthority (scheme rest : Str) : Option (Str × Str) :=
  let auth := rest.takeWhile (fun c => !(authEnd c))
  let hostPort := (auth.reverse.takeWhile (fun c => c != '@')).reverse
  let hostRaw := hostPort.takeWhile (fun c => c != ':')
  let portStr := (hostPort.dropWhile (fun c => c != ':')).drop 1
  if hostRaw.isEmpty then none
  else if !(hostRaw.all hostCharOk) then none
  else if !(portStr.all Char.isDigit && digitsVal portStr ≤ 65535) then none
  else some (scheme, lowerStr hostRaw)

/-- Model of `new URL(u)` restricted to what `ensureAbsoluteUrl` consumes:
`url.protocol` and `url.hostname` of an `http`/`https` URL. -/
def parseHttpUrl (u : Str) : Option (Str × Str) :=
  if "https://".toList.isPrefixOf (lowerStr u) then parseAuthority "https:".toList (u.drop 8)
  else if "http://".toList.isPrefixOf (lowerStr u) then parseAuthority "http:".toList (u.drop 7)
  else none

/-- Model of `raw.replace(/^"+|"+$/g, '')`: remove every leading and
trailing double-quote character. -/
def stripQuotes (l : Str) : Str :=
  ((l.dropWhile (fun c => c == '"')).reverse.dropWhile (fun c => c == '"')).reverse

/-- Output of the URL normalizer (spec section 3, `NormalizedOrigin`). -/
structure NormalizedOrigin where
  absolute : Str
  host : Str
deriving DecidableEq

/-- Model of `ensureAbsoluteUrl` (`build-kb.ts` lines 111-120): trim, fail on
empty, strip surrounding quotes, rewrite a leading `//` to `https://`,
prepend `https://` when no case-insensitive `http(s)://` prefix is present,
parse, and return `absolute = protocol + '//' + hostname` and
`host = hostname` with one leading `www.` removed, lowercased.  `none`
models the thrown error. -/
def ensureAbsoluteUrl (rawIn : Str) : Option NormalizedOrigin :=
  let raw := jsTrim rawIn
  if raw.isEmpty then none
  else
    let u1 := stripQuotes raw
    let u2 := if "//".toList.isPrefixOf u1 then "https://".toList ++ u1.drop 2 else u1
    let u3 :=
      if "http://".toList.isPrefixOf (lowerStr u2) || "https://".toList.isPrefixOf (lowerStr u2)
      then u2 else "https://".toList ++ u2
    match parseHttpUrl u3 with
    | none => none
    | some (scheme, hostname) =>
      some { absolute := scheme ++ "//".toList ++ hostname,
             host := lowerStr (if "www.".toList.isPrefixOf (lowerStr hostname) then hostname.drop 4 else hostname) }

example : ensureAbsoluteUrl "http://WWW.Acme.IO/".toList
    = some { absolute := "http://www.acme.io".toList, host := "acme.io".toList } := by decide
example : ensureAbsoluteUrl "example.com".toList
    = some { absolute := "https://example.com".toList, host := "example.com".toList } := by decide
example : ensureAbsoluteUrl "  \"//Cdn.Foo.com/x/y?z\"  ".toList
    = some { absolute := "https://cdn.foo.com".toList, host := "cdn.foo.com".toList } := by decide
example : ensureAbsoluteUrl "".toList = none := by decide
example : ensureAbsoluteUrl "http://user:pw@a.b:8080/p".toList
    = some { absolute := "http://a.b".toList, host := "a.b".toList } := by decide
example : ensureAbsoluteUrl "ht tp".toList = none := by decide

/-- One operator-configured bypass override (`type BypassRule` in the
source); `cookie`/`token` are optional string fields. -/
structure BypassRule where
  cookie : Option Str
  token : Option Str
deriving DecidableEq

/-- The rule table (`type BypassRules = Record<string, BypassRule>`),
modelled as an association list with unique-key JS-object lookup semantics
(first binding wins). -/
def BypassRules := List (Str × BypassRule)

/-- Model of the JS property read `rules[key]`. -/
def getRule (rules : BypassRules) (key : Str) : Option BypassRule :=
  (rules.find? (fun p => p.1 == key)).map (fun p => p.2)

/-- Wildcard key `'*.' + parts.slice(i).join('.')` for a label suffix. -/
def wildcardKey (parts : List Str) : Str :=
  '*' :: '.' :: List.intercalate ['.'] parts

/-- The wildcard loop of `matchRule` (`for (let i = 1; i < parts.length;
i++)`): try `*.` + every nonempty proper label suffix, widest first never
tried, narrowest first; stop at the first hit. -/
def trySuffixes (rules : BypassRules) : List Str → Option BypassRule
  | [] => none
  | _ :: rest =>
    match rest with
    | [] => none
    | _ :: _ =>
      match getRule rules (wildcardKey rest) with
      | some r => some r
      | none => trySuffixes rules rest

/-- Model of `matchRule` (`build-kb.ts` lines 136-145): exact host, then the
wildcard suffix loop, then the global `*` key. -/
def matchRule (rules : BypassRules) (host : Str) : Option BypassRule :=
  match getRule rules host with
  | some r => some r
  | none =>
    match trySuffixes rules (host.splitOn '.') with
    | some r => some r
    | none => getRule rules ['*']

/-- The synthesized Vercel protection-bypass cookie pair for a token. -/
def vercelPair (tok : Str) : Str :=
  "vercel-protection-bypass=".toList ++ tok ++ "; vercel-protection-bypass-s=1".toList

/-- Model of `buildBypassCookie` (`build-kb.ts` lines 147-155): no rule means
no cookie; a present cookie whose trim is truthy (nonempty) is used trimmed;
otherwise a present token whose trim is truthy yields the synthesized pair;
otherwise no cookie.  JS truthiness of a string is nonemptiness, so a
missing field and an empty/whitespace field behave alike. -/
def buildBypassCookie : Option BypassRule → Option Str
  | none => none
  | some r =>
    match r.cookie with
    | some c =>
      if !(jsTrim c).isEmpty then some (jsTrim c)
      else
        match r.token with
        | some t => if !(jsTrim t).isEmpty then some (vercelPair (jsTrim t)) else none
        | none => none
    | none =>
      match r.token with
      | some t => if !(jsTrim t).isEmpty then some (vercelPair (jsTrim t)) else none
      | none => none

/-- Model of `looksLikeVercelProtection`: the lowercased body contains both
the authentication phrase and the platform name. -/
def looksLikeVercelProtection (html : Str) : Bool :=
  hasSub (lowerStr html) "authentication required".toList && hasSub (lowerStr html) "vercel".toList

/-- Decimal rendering of a status code, as JS template interpolation does. -/
def natToStr (n : Nat) : Str := (Nat.repr n).toList

/-- One attempted match of the sitemap regex `/<loc>([^<]+)<\/loc>/gi` at the
start of `l`: case-insensitive `<loc>`, one or more non-`<` characters, then
case-insensitive `</loc>`.  Returns the trimmed capture and the total length
of the match (at least 12). -/
def tryLocAt (l : Str) : Option (Str × Nat) :=
  if "<loc>".toList.isPrefixOf (lowerStr l) then
    let content := (l.drop 5).takeWhile (fun ch => ch != '<')
    if content.isEmpty then none
    else if "</loc>".toList.isPrefixOf (lowerStr ((l.drop 5).drop content.length)) then
      some (jsTrim content, 5 + content.length + 6)
    else none
  else none

/-- Worker of the scan loop of `parseXmlLocs`: the regex engine tries every
start position in order; a successful match emits its trimmed capture and
resumes after the match, a failed position advances by one character.  The
fuel argument only bounds the recursion depth; every step consumes at least
one character, so with fuel = input length the bound is never reached. -/
def scanLocsGo : Nat → Str → List Str
  | 0, _ => []
  | _ + 1, [] => []
  | fuel + 1, c :: rest =>
    match tryLocAt (c :: rest) with
    | some (s, n) => s :: scanLocsGo fuel (rest.drop (n - 1))
    | none => scanLocsGo fuel rest

/-- Collect every `<loc>` capture of the sitemap text, in scan order. -/
def scanLocs (l : Str) : List Str := scanLocsGo l.length l

/-- Model of `parseXmlLocs` (`build-kb.ts` lines 192-198): collect every
`<loc>` capture, then `Array.from(new Set(locs))`. -/
def parseXmlLocs (xml : Str) : List Str := dedupFirst (scanLocs xml)

example : parseXmlLocs "<urlset><loc> https://a.io/x </loc><LOC>https://a.io/y</LOC><loc>https://a.io/x</loc></urlset>".toList
    = ["https://a.io/x".toList, "https://a.io/y".toList] := by decide
example : parseXmlLocs "<loc></loc><loc>https://a.io/<loc>deep</loc>".toList = ["deep".toList] := by decide

/-- One attempted match of the link regex `/href\s*=\s*["']([^"']+)["']/gi`
at the start of `l`: case-insensitive `href`, optional whitespace, `=`,
optional whitespace, an opening quote, one or more non-quote characters,
then either quote closes.  Returns the capture and the number of characters
up to and including the closing quote. -/
def tryHrefAt (l : Str) : Option (Str × Nat) :=
  if "href".toList.isPrefixOf (lowerStr l) then
    let ws1 := (l.drop 4).takeWhile wsChar
    match (l.drop 4).drop ws1.length with
    | '=' :: rest2 =>
      let ws2 := rest2.takeWhile wsChar
      match rest2.drop ws2.length with
      | q :: rest4 =>
        if q == '"' || q == '\'' then
          let content := rest4.takeWhile (fun ch => !(ch == '"' || ch == '\''))
          if content.isEmpty then none
          else
            match rest4.drop content.length with
            | _ :: _ => some (content, 4 + ws1.length + 1 + ws2.length + 1 + content.length + 1)
            | [] => none
        else none
      | [] => none
    | _ => none
  else none

/-- Worker of the `href` scan loop, with the same fuel convention as
`scanLocsGo`. -/
def scanHrefsGo : Nat → Str → List Str
  | 0, _ => []
  | _ + 1, [] => []
  | fuel + 1, c :: rest =>
    match tryHrefAt (c :: rest) with
    | some (s, n) => s :: scanHrefsGo fuel (rest.drop (n - 1))
    | none => scanHrefsGo fuel rest

/-- Collect every `href` attribute capture of the HTML text, in scan order. -/
def scanHrefs (l : Str) : List Str := scanHrefsGo l.length l

/-- Model of `u.href.split('#')[0]`: the text before the first `#`. -/
def splitHash (l : Str) : Str := l.takeWhile (fun c => c != '#')

/-- Model of parsing a full `http(s)` URL into protocol, hostname, and the
remainder after the authority (path, query and fragment, verbatim). -/
def parseFullHttpUrl (u : Str) : Option (Str × Str × Str) :=
  let schemeRest : Option (Str × Str) :=
    if "https://".toList.isPrefixOf (lowerStr u) then some ("https:".toList, u.drop 8)
    else if "http://".toList.isPrefixOf (lowerStr u) then some ("http:".toList, u.drop 7)
    else none
  match schemeRest with
  | none => none
  | some (scheme, rest) =>
    match parseAuthority scheme rest with
    | none => none
    | some (_, hostname) => some (scheme, hostname, rest.dropWhile (fun c => !(authEnd c)))

/-- Model of the serialization `u.href` of a parsed `http(s)` URL: scheme,
authority, and the remainder, with an empty remainder rendered as the root
path `/`.  WHATWG dot-segment normalization, percent-encoding and default
port elision are outside the model (no claim depends on them). -/
def serializeUrl (scheme host tail : Str) : Str :=
  scheme ++ "//".toList ++ host ++ (if tail.isEmpty then "/".toList else tail)

/-- Model of `new URL(href, base)` for a base that is a bare origin (the
handler always passes the normalizer's `absolute`): an absolute `http(s)`
URL is parsed as such; a `//`-prefixed URL takes the base scheme; another
explicit scheme never resolves to the base host and is dropped; a rooted
path resolves against the base authority; any other relative reference
resolves against the base's root path. -/
def resolveUrl (href bscheme bhost : Str) : Option (Str × Str × Str) :=
  if "http://".toList.isPrefixOf (lowerStr href) || "https://".toList.isPrefixOf (lowerStr href) then
    parseFullHttpUrl href
  else if "//".toList.isPrefixOf href then
    parseFullHttpUrl (bscheme ++ href)
  else if (href.takeWhile (fun c => !(authEnd c))).contains ':' then none
  else if "/".toList.isPrefixOf href then some (bscheme, bhost, href)
  else some (bscheme, bhost, '/' :: href)

/-- The per-href body of the extraction loop: skip fragment-only, `mailto:`
and `tel:` links, resolve, keep only links on the base host, and strip the
fragment from the serialized URL. -/
def resolveSameHost (href bscheme bhost : Str) : Option Str :=
  if href.isEmpty then none
  else if "#".toList.isPrefixOf href || "mailto:".toList.isPrefixOf href || "tel:".toList.isPrefixOf href then none
  else
    match resolveUrl href bscheme bhost with
    | none => none
    | some (scheme, host, tail) =>
      if host == bhost then some (splitHash (serializeUrl scheme host tail)) else none

/-- Model of `extractLinksFromHtml` (`build-kb.ts` lines 200-216): scan all
`href` attributes, resolve each against the root origin, keep same-host
links without their fragment, deduplicated in insertion order. -/
def extractLinksFromHtml (html root : Str) : List Str :=
  match parseHttpUrl root with
  | none => []
  | some (bscheme, bhost) =>
    dedupFirst ((scanHrefs html).filterMap (fun href => resolveSameHost href bscheme bhost))

set_option maxRecDepth 4000 in
example : extractLinksFromHtml "<a HREF=\"/about#team\">x</a><a href='https://Acme.io/pricing'>y</a><a href=\"mailto:hi@acme.io\">m</a><a href=\"https://other.com/\">o</a><a href=\"/about\">again</a>".toList "https://acme.io".toList
    = ["https://acme.io/about".toList, "https://acme.io/pricing".toList] := by decide

/-- Result of one `fetchText` call (`{ status, text }`). -/
structure FetchResult where
  status : Nat
  text : Str
deriving DecidableEq

/-- The four `fetchText` call sites of the handler, with `Option.none`
modelling a thrown network/timeout error for that call.  Fetching is the
only effect of the discovery engine, so the engine is a pure function of
this environment. -/
structure FetchEnv where
  sitemap : Option FetchResult
  sitemapBypass : Option FetchResult
  homepage : Option FetchResult
  homepageBypass : Option FetchResult

/-- Discovery source tag (`'sitemap' | 'homepage' | 'none'`). -/
inductive DiscSource
  | sitemap
  | homepage
  | none
deriving DecidableEq

/-- Mutable discovery state of the handler after a stage (`discovered`,
`source`, `blocked`, `blocked_reason`). -/
structure DiscoveryOutcome where
  discovered : List Str
  source : DiscSource
  blocked : Bool
  blocked_reason : Option Str
deriving DecidableEq

/-- Blocked-reason string `sitemap_<status>`. -/
def sitemapReason (status : Nat) : Str := "sitemap_".toList ++ natToStr status

/-- Blocked-reason string `home_<status>`. -/
def homeReason (status : Nat) : Str := "home_".toList ++ natToStr status

/-- Stage 1 of the discovery engine (`build-kb.ts` lines 266-288): fetch the
sitemap; on 401/403 retry with the bypass cookie if one exists, otherwise
record blocking; on success filter the parsed locs to those starting with
the origin.  A thrown fetch (`Option.none`) leaves the state untouched, as
the surrounding `try { } catch { }` does. -/
def sitemapStage (env : FetchEnv) (absolute : Str) (cookie : Option Str) : DiscoveryOutcome :=
  match env.sitemap with
  | Option.none => ⟨[], DiscSource.none, false, Option.none⟩
  | some r1 =>
    if r1.status == 401 || r1.status == 403 then
      match cookie with
      | some _ =>
        match env.sitemapBypass with
        | Option.none => ⟨[], DiscSource.none, false, Option.none⟩
        | some r1b =>
          if r1b.status < 400 then
            let locs := (parseXmlLocs r1b.text).filter (fun u => absolute.isPrefixOf u)
            if locs.isEmpty then ⟨[], DiscSource.none, false, Option.none⟩
            else ⟨locs, DiscSource.sitemap, false, Option.none⟩
          else ⟨[], DiscSource.none, true, some (sitemapReason r1b.status)⟩
      | Option.none => ⟨[], DiscSource.none, true, some (sitemapReason r1.status)⟩
    else if r1.status < 400 then
      let locs := (parseXmlLocs r1.text).filter (fun u => absolute.isPrefixOf u)
      if locs.isEmpty then ⟨[], DiscSource.none, false, Option.none⟩
      else ⟨locs, DiscSource.sitemap, false, Option.none⟩
    else ⟨[], DiscSource.none, false, Option.none⟩

/-- Stage 2 of the discovery engine (`build-kb.ts` lines 290-313): only when
nothing was discovered, fetch the homepage; blocking is 401/403 or the
protection-page signature; the bypass retry mirrors stage 1, except that a
pre-existing `blocked_reason` is never overwritten (`blocked_reason ||
...`). -/
def homepageStage (env : FetchEnv) (absolute : Str) (cookie : Option Str)
    (st : DiscoveryOutcome) : DiscoveryOutcome :=
  if !st.discovered.isEmpty then st
  else
    match env.homepage with
    | Option.none => st
    | some r2 =>
      if r2.status == 401 || r2.status == 403 || looksLikeVercelProtection r2.text then
        match cookie with
        | some _ =>
          match env.homepageBypass with
          | Option.none => st
          | some r2b =>
            if r2b.status < 400 then
              let links := extractLinksFromHtml r2b.text absolute
              if links.isEmpty then st
              else { st with discovered := links, source := DiscSource.homepage }
            else { st with blocked := true,
                           blocked_reason := some (st.blocked_reason.getD (homeReason r2b.status)) }
        | Option.none =>
          { st with blocked := true,
                    blocked_reason := some (st.blocked_reason.getD (homeReason r2.status)) }
      else if r2.status < 400 then
        let links := extractLinksFromHtml r2.text absolute
        if links.isEmpty then st
        else { st with discovered := links, source := DiscSource.homepage }
      else st

/-- The discovery engine: stage 1 then stage 2. -/
def discover (env : FetchEnv) (absolute : Str) (cookie : Option Str) : DiscoveryOutcome :=
  homepageStage env absolute cookie (sitemapStage env absolute cookie)

/-- The nine synthetic fallback paths of the handler (`build-kb.ts` lines
317-325). -/
def ninePaths : List Str :=
  ["/".toList, "/about".toList, "/products".toList, "/solutions".toList, "/pricing".toList,
   "/blog".toList, "/docs".toList, "/contact".toList, "/careers".toList]

/-- One entry of the final crawl plan. -/
structure CrawlPlanItem where
  url : Str
  reason : Str
deriving DecidableEq

/-- Model of the plan construction (`build-kb.ts` lines 316-337): rank the
discovered URLs, or the nine synthetic paths when nothing was discovered,
and tag each survivor with its reason. -/
def crawlPlan (discovered : List Str) (absolute : Str) : List CrawlPlanItem :=
  (rankTopK (if discovered.isEmpty then ninePaths.map (fun p => absolute ++ p) else discovered) 20).map
    (fun u => { url := u, reason := reasonFor u })

/-- The `diagnostics.protection` object emitted when blocked. -/
structure ProtectionDiag where
  blocked : Bool
  blocked_reason : Option Str
  used_bypass_cookie : Bool
deriving DecidableEq

/-- The discovery-related outputs of the handler. -/
structure PipelineOut where
  source : DiscSource
  blocked : Bool
  crawl_plan : List CrawlPlanItem
  protection : Option ProtectionDiag

/-- The handler's discovery pipeline (`build-kb.ts` lines 255-357) as a pure
function: resolve the bypass rule for the host, build the cookie, run both
discovery stages, rank, and attach the protection diagnostics only when
blocked, with `used_bypass_cookie = Boolean(bypassCookie)`. -/
def runPipeline (rules : BypassRules) (absolute host : Str) (env : FetchEnv) : PipelineOut :=
  let cookie := buildBypassCookie (matchRule rules host)
  let d := discover env absolute cookie
  { source := d.source
    blocked := d.blocked
    crawl_plan := crawlPlan d.discovered absolute
    protection :=
      if d.blocked then some ⟨d.blocked, d.blocked_reason, cookie.isSome⟩ else Option.none }

theorem containsEq {l : List Str} {a : Str} : l.contains a = true ↔ a ∈ l := by
  rw [List.contains, List.elem_iff]

theorem dedupGo_sublist (seen l : List Str) : List.Sublist (dedupGo seen l) l := by
  induction l generalizing seen with
  | nil => simp [dedupGo]
  | cons x xs ih =>
    simp only [dedupGo]
    split
    · exact (ih seen).trans (List.sublist_cons_self x xs)
    · exact (ih (x :: seen)).cons₂ x

theorem mem_dedupGo {y : Str} (seen l : List Str) :
    y ∈ dedupGo seen l ↔ y ∈ l ∧ y ∉ seen := by
  induction l generalizing seen with
  | nil => simp [dedupGo]
  | cons x xs ih =>
    simp only [dedupGo]
    by_cases hx : x ∈ seen
    · rw [if_pos (containsEq.mpr hx), ih]
      constructor
      · rintro ⟨h1, h2⟩
        exact ⟨List.mem_cons_of_mem x h1, h2⟩
      · rintro ⟨h1, h2⟩
        rcases List.mem_cons.mp h1 with rfl | h1
        · exact absurd hx h2
        · exact ⟨h1, h2⟩
    · rw [if_neg (fun hc => hx (containsEq.mp hc))]
      simp only [List.mem_cons, ih, List.mem_cons]
      constructor
      · rintro (rfl | ⟨h1, h2⟩)
        · exact ⟨Or.inl rfl, hx⟩
        · exact ⟨Or.inr h1, fun hc => h2 (Or.inr hc)⟩
      · rintro ⟨h1, h2⟩
        rcases h1 with rfl | h1
        · exact Or.inl rfl
        · by_cases hyx : y = x
          · exact Or.inl hyx
          · refine Or.inr ⟨h1, fun hc => ?_⟩
            rcases hc with hc | hc
            · exact hyx hc
            · exact h2 hc

theorem dedupGo_nodup (seen l : List Str) : (dedupGo seen l).Nodup := by
  induction l generalizing seen with
  | nil => simp [dedupGo]
  | cons x xs ih =>
    simp only [dedupGo]
    split
    · exact ih seen
    · refine List.nodup_cons.mpr ⟨fun hc => ?_, ih (x :: seen)⟩
      exact ((mem_dedupGo (x :: seen) xs).mp hc).2 (List.mem_cons_self x seen)

theorem dedupGo_congr {s1 s2 : List Str} (hs : ∀ z, z ∈ s1 ↔ z ∈ s2) (l : List Str) :
    dedupGo s1 l = dedupGo s2 l := by
  induction l generalizing s1 s2 with
  | nil => rfl
  | cons x xs ih =>
    simp only [dedupGo]
    by_cases hx : x ∈ s1
    · rw [if_pos (containsEq.mpr hx), if_pos (containsEq.mpr ((hs x).mp hx)), ih hs]
    · rw [if_neg (fun hc => hx (containsEq.mp hc)),
        if_neg (fun hc => hx ((hs x).mpr (containsEq.mp hc)))]
      refine congrArg (x :: ·) (ih fun z => ?_)
      simp only [List.mem_cons]
      exact or_congr Iff.rfl (hs z)

theorem dedupGo_filter (x : Str) (seen l : List Str) :
    dedupGo (x :: seen) l = dedupGo seen (l.filter (fun y => y != x)) := by
  induction l generalizing seen with
  | nil => rfl
  | cons y ys ih =>
    by_cases hyx : y = x
    · subst hyx
      have h1 : (y :: seen).contains y = true := containsEq.mpr (List.mem_cons_self y seen)
      have h2 : (y :: ys).filter (fun z => z != y) = ys.filter (fun z => z != y) := by
        simp [List.filter_cons]
      rw [h2, ← ih seen]
      simp only [dedupGo, h1, if_true]
    · have h2 : (y :: ys).filter (fun z => z != x) = y :: ys.filter (fun z => z != x) := by
        simp [List.filter_cons, bne, hyx]
      rw [h2]
      by_cases hys : y ∈ seen
      · have ha : (x :: seen).contains y = true := containsEq.mpr (List.mem_cons_of_mem x hys)
        have hb : seen.contains y = true := containsEq.mpr hys
        simp only [dedupGo, ha, hb, if_true]
        exact ih seen
      · have ha : ¬((x :: seen).contains y = true) := by
          intro hc
          rcases List.mem_cons.mp (containsEq.mp hc) with hc2 | hc2
          · exact hyx hc2
          · exact hys hc2
        have hb : ¬(seen.contains y = true) := fun hc => hys (containsEq.mp hc)
        simp only [dedupGo, if_neg ha, if_neg hb]
        refine congrArg (y :: ·) ?_
        rw [@dedupGo_congr (y :: x :: seen) (x :: y :: seen)
          (fun z => by simp only [List.mem_cons]; tauto) ys]
        exact ih (y :: seen)

theorem dedupFirst_cons (x : Str) (xs : List Str) :
    dedupFirst (x :: xs) = x :: dedupFirst (xs.filter (fun y => y != x)) := by
  have h0 : ¬(([] : List Str).contains x = true) := by
    intro hc
    exact absurd (containsEq.mp hc) (List.not_mem_nil x)
  simp only [dedupFirst, dedupGo, if_neg h0]
  exact congrArg (x :: ·) (dedupGo_filter x [] xs)

theorem dedupFirst_sublist (l : List Str) : List.Sublist (dedupFirst l) l :=
  dedupGo_sublist [] l

theorem mem_dedupFirst {y : Str} (l : List Str) : y ∈ dedupFirst l ↔ y ∈ l := by
  rw [dedupFirst, mem_dedupGo]
  simp

theorem dedupFirst_nodup (l : List Str) : (dedupFirst l).Nodup := dedupGo_nodup [] l

theorem dedupFirst_eq_self {l : List Str} (h : l.Nodup) : dedupFirst l = l := by
  induction l with
  | nil => rfl
  | cons x xs ih =>
    rw [dedupFirst_cons]
    have hx : x ∉ xs := (List.nodup_cons.mp h).1
    have hfil : xs.filter (fun y => y != x) = xs := by
      rw [List.filter_eq_self]
      intro y hy
      simp only [bne_iff_ne, ne_eq]
      exact fun hc => hx (hc ▸ hy)
    rw [hfil, ih (List.nodup_cons.mp h).2]

theorem insertDesc_perm (x : Str) (l : List Str) : (insertDesc x l).Perm (x :: l) := by
  induction l with
  | nil => exact List.Perm.refl _
  | cons y ys ih =>
    simp only [insertDesc]
    split
    · exact (ih.cons y).trans (List.Perm.swap x y ys)
    · exact List.Perm.refl _

theorem sortByScoreDesc_perm (l : List Str) : (sortByScoreDesc l).Perm l := by
  induction l with
  | nil => exact List.Perm.refl _
  | cons x xs ih => exact (insertDesc_perm x (sortByScoreDesc xs)).trans (ih.cons x)

theorem insertDesc_pairwise (x : Str) {l : List Str}
    (h : l.Pairwise (fun a b => score b ≤ score a)) :
    (insertDesc x l).Pairwise (fun a b => score b ≤ score a) := by
  induction l with
  | nil => simp [insertDesc]
  | cons y ys ih =>
    rcases List.pairwise_cons.mp h with ⟨hy, hys⟩
    simp only [insertDesc]
    split
    case isTrue hlt =>
      refine List.pairwise_cons.mpr ⟨fun z hz => ?_, ih hys⟩
      rcases List.mem_cons.mp ((insertDesc_perm x ys).mem_iff.mp hz) with rfl | hz'
      · exact Nat.le_of_lt hlt
      · exact hy z hz'
    case isFalse hge =>
      refine List.pairwise_cons.mpr ⟨fun z hz => ?_, h⟩
      rcases List.mem_cons.mp hz with rfl | hz'
      · exact Nat.le_of_not_lt hge
      · exact Nat.le_trans (hy z hz') (Nat.le_of_not_lt hge)

theorem sortByScoreDesc_pairwise (l : List Str) :
    (sortByScoreDesc l).Pairwise (fun a b => score b ≤ score a) := by
  induction l with
  | nil => simp [sortByScoreDesc]
  | cons x xs ih => exact insertDesc_pairwise x ih

theorem insertDesc_filter (x : Str) (l : List Str) (n : Nat) :
    (insertDesc x l).filter (fun y => score y == n) =
      if score x == n then x :: l.filter (fun y => score y == n)
      else l.filter (fun y => score y == n) := by
  induction l with
  | nil =>
    by_cases hxn : score x = n <;> simp [insertDesc, List.filter_cons, hxn]
  | cons y ys ih =>
    simp only [insertDesc]
    split
    case isTrue hlt =>
      rw [List.filter_cons, ih]
      by_cases hxn : score x = n
      · have hyn : ¬(score y = n) := by omega
        simp [hxn, hyn, List.filter_cons]
      · by_cases hyn : score y = n <;> simp [hxn, hyn, List.filter_cons]
    case isFalse hge =>
      by_cases hxn : score x = n <;> simp [hxn, List.filter_cons]

theorem sortByScoreDesc_filter (l : List Str) (n : Nat) :
    (sortByScoreDesc l).filter (fun y => score y == n) =
      l.filter (fun y => score y == n) := by
  induction l with
  | nil => rfl
  | cons x xs ih =>
    simp only [sortByScoreDesc]
    rw [insertDesc_filter]
    by_cases hxn : score x = n <;> simp [hxn, ih, List.filter_cons]

theorem sortByScoreDesc_head_max {l : List Str} {x : Str} (hx : x ∈ l)
    (hmax : ∀ y ∈ l, y ≠ x → score y < score x) :
    (sortByScoreDesc l).head? = some x := by
  have hperm := sortByScoreDesc_perm l
  have hxmem : x ∈ sortByScoreDesc l := hperm.mem_iff.mpr hx
  rcases hsort : sortByScoreDesc l with _ | ⟨h, t⟩
  · rw [hsort] at hxmem
    exact absurd hxmem (List.not_mem_nil x)
  · have hpw := sortByScoreDesc_pairwise l
    rw [hsort] at hpw hperm hxmem
    rcases List.pairwise_cons.mp hpw with ⟨hhead, _⟩
    have hhl : h ∈ l := hperm.mem_iff.mp (List.mem_cons_self h t)
    by_cases hhx : h = x
    · rw [hhx]
      rfl
    · have h1 : score h < score x := hmax h hhl hhx
      rcases List.mem_cons.mp hxmem with rfl | hxt
      · exact absurd rfl hhx
      · have h2 : score x ≤ score h := hhead x hxt
        omega

theorem head_take {l : List Str} {k : Nat} (hk : 0 < k) : (l.take k).head? = l.head? := by
  cases l with
  | nil => simp
  | cons x xs =>
    cases k with
    | zero => omega
    | succ m => simp [List.take]

/-- C6: `rankTopK` first deduplicates keeping the first occurrence of each
URL (characterized by the recursive first-occurrence equation, together with
nodup, sublist and membership preservation), then sorts in descending score
order; stability is stated as preservation of every equal-score fiber of the
input order; finally it truncates to the first `k` elements.  Determinism is
immediate since `rankTopK` is a function of the input list alone. -/
theorem rankTopK_dedup_stable_sort (urls : List Str) (k : Nat) :
    rankTopK urls k = (sortByScoreDesc (dedupFirst urls)).take k ∧
    (dedupFirst urls).Nodup ∧
    List.Sublist (dedupFirst urls) urls ∧
    (∀ u, u ∈ dedupFirst urls ↔ u ∈ urls) ∧
    (∀ (x : Str) (xs : List Str),
      dedupFirst (x :: xs) = x :: dedupFirst (xs.filter (fun y => y != x))) ∧
    (sortByScoreDesc (dedupFirst urls)).Perm (dedupFirst urls) ∧
    (sortByScoreDesc (dedupFirst urls)).Pairwise (fun a b => score b ≤ score a) ∧
    (∀ n, (sortByScoreDesc (dedupFirst urls)).filter (fun y => score y == n)
        = (dedupFirst urls).filter (fun y => score y == n)) ∧
    (rankTopK urls k).length ≤ k :=
  ⟨rfl, dedupFirst_nodup urls, dedupFirst_sublist urls, fun _ => mem_dedupFirst urls,
   fun x xs => dedupFirst_cons x xs, sortByScoreDesc_perm _, sortByScoreDesc_pairwise _,
   fun n => sortByScoreDesc_filter _ n, List.length_take_le k _⟩

/-- C5: the ranking score is the sum, over all matching patterns, of the
weights in the table, matched case-insensitively on the full URL with no
early exit (`score`, taken from the source, coincides with the additive
table `scoreSpec` written in the spec's row order); the URL containing both
`about` and `pricing` scores 15 and, for every permutation of the three test
URLs, is ranked first. -/
theorem ranking_score_accumulates :
    (∀ u, score u = scoreSpec u) ∧
    score "https://x.com/about-pricing".toList = 15 ∧
    (∀ l : List Str,
      l.Perm ["https://x.com/about".toList, "https://x.com/pricing".toList,
              "https://x.com/about-pricing".toList] →
      (rankTopK l 20).head? = some "https://x.com/about-pricing".toList) := by
  refine ⟨?_, by decide, ?_⟩
  · intro u
    simp only [score, scoreSpec]
    omega
  · intro l hperm
    have hnodup : l.Nodup := hperm.nodup_iff.mpr (by decide)
    have hded : dedupFirst l = l := dedupFirst_eq_self hnodup
    have hmem : "https://x.com/about-pricing".toList ∈ l := hperm.mem_iff.mpr (by decide)
    have hmax : ∀ y ∈ l, y ≠ "https://x.com/about-pricing".toList →
        score y < score "https://x.com/about-pricing".toList := by
      intro y hy hne
      have hy2 := hperm.mem_iff.mp hy
      simp only [List.mem_cons, List.not_mem_nil, or_false] at hy2
      rcases hy2 with rfl | rfl | rfl
      · decide
      · decide
      · exact absurd rfl hne
    rw [rankTopK, hded, head_take (by omega)]
    exact sortByScoreDesc_head_max hmem hmax

/-- Witness for C5 at the concrete input list in its given order. -/
theorem ranking_score_accumulates_witness :
    (rankTopK ["https://x.com/about".toList, "https://x.com/pricing".toList,
               "https://x.com/about-pricing".toList] 20).head?
      = some "https://x.com/about-pricing".toList :=
  ranking_score_accumulates.2.2 _ (List.Perm.refl _)

/-- C9: the sitemap parser is total by construction (it is a structurally
recursive scanner over the characters); it returns the scanned trimmed
`loc` captures deduplicated preserving first-occurrence order, and the
empty input yields the empty output. -/
theorem parseXmlLocs_total_dedup :
    parseXmlLocs ([] : Str) = [] ∧
    ∀ xml : Str, (parseXmlLocs xml).Nodup ∧
      List.Sublist (parseXmlLocs xml) (scanLocs xml) ∧
      (∀ s : Str, s ∈ parseXmlLocs xml ↔ s ∈ scanLocs xml) :=
  ⟨rfl, fun _ => ⟨dedupFirst_nodup _, dedupFirst_sublist _, fun _ => mem_dedupFirst _⟩⟩

/-- C7: every URL surviving ranking gets exactly one reason tag, chosen as
the first matching category of the fixed priority list about > pricing >
products/solutions > blog/news > docs/help > careers > contact > homepage >
page: the source's conditional chain `reasonFor` coincides with the
priority-list selection `reasonSpec`, and the crawl plan tags every ranked
URL with it. -/
theorem reason_priority_order :
    (∀ u, reasonFor u = reasonSpec u) ∧
    (∀ (discovered : List Str) (absolute : Str),
      crawlPlan discovered absolute =
        (rankTopK (if discovered.isEmpty then ninePaths.map (fun p => absolute ++ p)
                   else discovered) 20).map
          (fun u => { url := u, reason := reasonSpec u })) := by
  have h1 : ∀ u, reasonFor u = reasonSpec u := by
    intro u
    simp only [reasonSpec, reasonRules, List.find?]
    by_cases c1 : hasSub u "about".toList
    · simp_all [reasonFor]
    · by_cases c2 : hasSub u "pricing".toList
      · simp_all [reasonFor]
      · by_cases c3 : (hasSub u "product".toList || hasSub u "solutions".toList)
        · rcases (by simpa using c3 :
              hasSub u "product".toList = true ∨ hasSub u "solutions".toList = true) with h | h <;>
            simp_all [reasonFor]
        · by_cases c4 : (hasSub u "blog".toList || hasSub u "news".toList || hasSub u "stories".toList)
          · rcases (by simpa using c4 :
                (hasSub u "blog".toList = true ∨ hasSub u "news".toList = true) ∨
                  hasSub u "stories".toList = true) with (h | h) | h <;>
              simp_all [reasonFor]
          · by_cases c5 : (hasSub u "docs".toList || hasSub u "help".toList || hasSub u "support".toList)
            · rcases (by simpa using c5 :
                  (hasSub u "docs".toList = true ∨ hasSub u "help".toList = true) ∨
                    hasSub u "support".toList = true) with (h | h) | h <;>
                simp_all [reasonFor]
            · by_cases c6 : (hasSub u "careers".toList || hasSub u "jobs".toList)
              · rcases (by simpa using c6 :
                    hasSub u "careers".toList = true ∨ hasSub u "jobs".toList = true) with h | h <;>
                  simp_all [reasonFor]
              · by_cases c7 : hasSub u "contact".toList
                · simp_all [reasonFor]
                · by_cases c8 : "/".toList.isSuffixOf u
                  · rw [c8]
                    simp_all [reasonFor]
                  · rw [show "/".toList.isSuffixOf u = false from by
                      rw [← Bool.not_eq_true]; exact c8]
                    simp_all [reasonFor]
  refine ⟨h1, fun discovered absolute => ?_⟩
  simp only [crawlPlan]
  exact List.map_congr_left fun u _ => by rw [h1 u]

/-- Counterexample for C1: the wildcard loop does reach `*.com` (the claim
says `*.com` is not tried).  With a rule table containing only the key
`*.com` — which under the claim's lookup order could never match host
`a.b.example.com` (not the exact key, not one of the claimed wildcards, not
`*`), so the claimed resolver would return no rule — `matchRule` returns
that rule. -/
theorem matchRule_tries_star_com :
    matchRule [("*.com".toList, ({ cookie := Option.none, token := some "X".toList } : BypassRule))]
        "a.b.example.com".toList
      = some { cookie := Option.none, token := some "X".toList } ∧
    getRule [("*.com".toList, ({ cookie := Option.none, token := some "X".toList } : BypassRule))]
        "a.b.example.com".toList = Option.none ∧
    getRule [("*.com".toList, ({ cookie := Option.none, token := some "X".toList } : BypassRule))]
        "*.b.example.com".toList = Option.none ∧
    getRule [("*.com".toList, ({ cookie := Option.none, token := some "X".toList } : BypassRule))]
        "*.example.com".toList = Option.none ∧
    getRule [("*.com".toList, ({ cookie := Option.none, token := some "X".toList } : BypassRule))]
        "*".toList = Option.none := by
  refine ⟨by decide, by decide, by decide, by decide, by decide⟩

/-- C1 as amended: for host `a.b.example.com` the resolver consults, in
order and first match winning, the exact host key, then the wildcard keys
`*.b.example.com`, `*.example.com` and `*.com` (the suffix loop runs down to
and including the top-level label), then the global `*` key; in particular
with table `{"*.example.com": {token: "T"}}` it returns that rule. -/
theorem matchRule_suffix_order (rules : BypassRules) :
    matchRule rules "a.b.example.com".toList =
      ((getRule rules "a.b.example.com".toList).orElse fun _ =>
        ((getRule rules "*.b.example.com".toList).orElse fun _ =>
          ((getRule rules "*.example.com".toList).orElse fun _ =>
            ((getRule rules "*.com".toList).orElse fun _ =>
              getRule rules "*".toList)))) ∧
    matchRule [("*.example.com".toList, ({ cookie := Option.none, token := some "T".toList } : BypassRule))]
        "a.b.example.com".toList
      = some { cookie := Option.none, token := some "T".toList } := by
  constructor
  · have hsplit : List.splitOn '.' "a.b.example.com".toList =
        ["a".toList, "b".toList, "example".toList, "com".toList] := by decide
    have h1 : wildcardKey ["b".toList, "example".toList, "com".toList] = "*.b.example.com".toList := by decide
    have h2 : wildcardKey ["example".toList, "com".toList] = "*.example.com".toList := by decide
    have h3 : wildcardKey ["com".toList] = "*.com".toList := by decide
    unfold matchRule
    rw [hsplit]
    simp only [trySuffixes]
    rw [h1, h2, h3, show ('*' :: ([] : Str)) = "*".toList from by decide]
    cases getRule rules "a.b.example.com".toList <;>
      cases getRule rules "*.b.example.com".toList <;>
      cases getRule rules "*.example.com".toList <;>
      cases getRule rules "*.com".toList <;>
      rfl
  · decide

/-- C10: a rule whose `cookie` field is present but whitespace-only behaves
exactly like a rule with no `cookie` field: the cookie branch falls through
to the token branch, which synthesizes the Vercel pair from the trimmed
token when that is nonempty and otherwise yields no cookie. -/
theorem buildBypassCookie_blank (c : Str) (tok : Option Str) (hc : jsTrim c = []) :
    buildBypassCookie (some { cookie := some c, token := tok })
        = buildBypassCookie (some { cookie := Option.none, token := tok }) ∧
    (∀ t, tok = some t → jsTrim t ≠ [] →
      buildBypassCookie (some { cookie := some c, token := tok })
        = some (vercelPair (jsTrim t))) ∧
    (∀ t, tok = some t → jsTrim t = [] →
      buildBypassCookie (some { cookie := some c, token := tok }) = Option.none) ∧
    (tok = Option.none →
      buildBypassCookie (some { cookie := some c, token := tok }) = Option.none) := by
  have he : (jsTrim c).isEmpty = true := by rw [hc]; rfl
  refine ⟨?_, ?_, ?_, ?_⟩
  · cases tok <;> simp [buildBypassCookie, he]
  · rintro t rfl hne
    have ht : (jsTrim t).isEmpty = false := by
      cases hj : jsTrim t with
      | nil => exact absurd hj hne
      | cons a as => rfl
    simp [buildBypassCookie, he, ht]
  · rintro t rfl hyt
    have ht : (jsTrim t).isEmpty = true := by rw [hyt]; rfl
    simp [buildBypassCookie, he, ht]
  · rintro rfl
    simp [buildBypassCookie, he]

/-- Witness for C10 at a concrete whitespace-only cookie and token `T`. -/
theorem buildBypassCookie_blank_witness :
    buildBypassCookie (some { cookie := some "   ".toList, token := some "T".toList })
        = buildBypassCookie (some { cookie := Option.none, token := some "T".toList }) ∧
    buildBypassCookie (some { cookie := some "   ".toList, token := some "T".toList })
        = some (vercelPair "T".toList) := by
  have h := buildBypassCookie_blank "   ".toList (some "T".toList) (by decide)
  refine ⟨h.1, ?_⟩
  rw [h.2.1 "T".toList rfl (by decide)]
  rw [show jsTrim "T".toList = "T".toList from by decide]

/-- Counterexample for C2: on input `"http://WWW.Acme.IO/"` the normalizer
returns `absolute = "http://www.acme.io"` — the scheme is preserved and the
`www.` is kept in `absolute` (only `host` strips it) — not
`"https://acme.io"` as claimed. -/
theorem ensureAbsoluteUrl_acme_counterexample :
    ensureAbsoluteUrl "http://WWW.Acme.IO/".toList
        = some { absolute := "http://www.acme.io".toList, host := "acme.io".toList } ∧
    ¬ ensureAbsoluteUrl "http://WWW.Acme.IO/".toList
        = some { absolute := "https://acme.io".toList, host := "acme.io".toList } :=
  ⟨by decide, by decide⟩

/-- C2 as amended: for input `"http://WWW.Acme.IO/"` the normalizer returns
`host = "acme.io"` and `absolute = "http://www.acme.io"` (the parsed scheme
is kept and `absolute` uses the full lowercased hostname including `www.`;
only the `host` field strips a leading `www.`). -/
theorem ensureAbsoluteUrl_acme :
    ensureAbsoluteUrl "http://WWW.Acme.IO/".toList
      = some { absolute := "http://www.acme.io".toList, host := "acme.io".toList } := by
  decide

/-- The nine synthetic URLs are pairwise distinct for any origin, since
appending to a fixed prefix is injective. -/
theorem ninePaths_map_nodup (absolute : Str) :
    (ninePaths.map (fun p => absolute ++ p)).Nodup := by
  refine List.Nodup.map (fun a b h => ?_) (by decide)
  exact (List.append_right_inj absolute).mp h

/-- C3: when both the sitemap fetch and the homepage fetch throw, the engine
swallows both errors (by construction it is a total function), the outcome
is empty with `source = none` and no blocking, and the crawl plan is exactly
the nine synthetic origin-prefixed paths, ranked (a permutation of the nine,
in descending score order, of length 9). -/
theorem discovery_fallback_synthetic (rules : BypassRules) (absolute host : Str) (env : FetchEnv)
    (hs : env.sitemap = Option.none) (hh : env.homepage = Option.none) :
    discover env absolute (buildBypassCookie (matchRule rules host)) =
      { discovered := [], source := DiscSource.none, blocked := false,
        blocked_reason := Option.none } ∧
    (runPipeline rules absolute host env).source = DiscSource.none ∧
    (runPipeline rules absolute host env).blocked = false ∧
    ((runPipeline rules absolute host env).crawl_plan.map (fun it => it.url)).Perm
      (ninePaths.map (fun p => absolute ++ p)) ∧
    ((runPipeline rules absolute host env).crawl_plan.map (fun it => it.url)).Pairwise
      (fun a b => score b ≤ score a) ∧
    (runPipeline rules absolute host env).crawl_plan.length = 9 := by
  have hd : ∀ cookie, discover env absolute cookie =
      { discovered := [], source := DiscSource.none, blocked := false,
        blocked_reason := Option.none } := by
    intro cookie
    simp [discover, sitemapStage, homepageStage, hs, hh]
  have hded : dedupFirst (ninePaths.map (fun p => absolute ++ p)) =
      ninePaths.map (fun p => absolute ++ p) :=
    dedupFirst_eq_self (ninePaths_map_nodup absolute)
  have hlen : (sortByScoreDesc (ninePaths.map (fun p => absolute ++ p))).length = 9 := by
    rw [(sortByScoreDesc_perm _).length_eq, List.length_map]
    rfl
  have hrank : rankTopK (ninePaths.map (fun p => absolute ++ p)) 20 =
      sortByScoreDesc (ninePaths.map (fun p => absolute ++ p)) := by
    rw [rankTopK, hded]
    exact List.take_of_length_le (by omega)
  have hplan : (runPipeline rules absolute host env).crawl_plan.map (fun it => it.url) =
      sortByScoreDesc (ninePaths.map (fun p => absolute ++ p)) := by
    simp only [runPipeline, hd, crawlPlan, List.isEmpty_nil, if_true, hrank, List.map_map]
    rw [show ((fun it : CrawlPlanItem => it.url) ∘ fun u =>
        ({ url := u, reason := reasonFor u } : CrawlPlanItem)) = fun u => u from rfl]
    exact List.map_id' _
  refine ⟨hd _, ?_, ?_, ?_, ?_, ?_⟩
  · simp [runPipeline, hd]
  · simp [runPipeline, hd]
  · rw [hplan, ← hded]
    exact (sortByScoreDesc_perm _).trans (hded ▸ List.Perm.refl _)
  · rw [hplan]
    exact sortByScoreDesc_pairwise _
  · have := congrArg List.length hplan
    rwa [List.length_map, hlen] at this

/-- Witness for C3 at a concrete origin with both fetches failing. -/
theorem discovery_fallback_synthetic_witness :
    discover ({ sitemap := Option.none, sitemapBypass := Option.none,
                homepage := Option.none, homepageBypass := Option.none } : FetchEnv)
        "https://acme.io".toList
        (buildBypassCookie (matchRule [] "acme.io".toList)) =
      { discovered := [], source := DiscSource.none, blocked := false,
        blocked_reason := Option.none } ∧
    (runPipeline [] "https://acme.io".toList "acme.io".toList
        { sitemap := Option.none, sitemapBypass := Option.none,
          homepage := Option.none, homepageBypass := Option.none }).source = DiscSource.none ∧
    (runPipeline [] "https://acme.io".toList "acme.io".toList
        { sitemap := Option.none, sitemapBypass := Option.none,
          homepage := Option.none, homepageBypass := Option.none }).blocked = false ∧
    ((runPipeline [] "https://acme.io".toList "acme.io".toList
        { sitemap := Option.none, sitemapBypass := Option.none,
          homepage := Option.none, homepageBypass := Option.none }).crawl_plan.map
            (fun it => it.url)).Perm
      (ninePaths.map (fun p => "https://acme.io".toList ++ p)) ∧
    ((runPipeline [] "https://acme.io".toList "acme.io".toList
        { sitemap := Option.none, sitemapBypass := Option.none,
          homepage := Option.none, homepageBypass := Option.none }).crawl_plan.map
            (fun it => it.url)).Pairwise (fun a b => score b ≤ score a) ∧
    (runPipeline [] "https://acme.io".toList "acme.io".toList
        { sitemap := Option.none, sitemapBypass := Option.none,
          homepage := Option.none, homepageBypass := Option.none }).crawl_plan.length = 9 :=
  discovery_fallback_synthetic [] "https://acme.io".toList "acme.io".toList
    { sitemap := Option.none, sitemapBypass := Option.none,
      homepage := Option.none, homepageBypass := Option.none } rfl rfl

/-- C4: when the sitemap fetch returns 403, no bypass rule matches the host,
and the homepage fetch also returns 403, the output is blocked with
`blocked_reason = "sitemap_403"` (the earlier sitemap reason is never
overwritten by the homepage block) and
`diagnostics.protection.used_bypass_cookie = false`. -/
theorem blocked_without_bypass (rules : BypassRules) (absolute host t1 t2 : Str) (env : FetchEnv)
    (hr : matchRule rules host = Option.none)
    (h1 : env.sitemap = some { status := 403, text := t1 })
    (h2 : env.homepage = some { status := 403, text := t2 }) :
    (runPipeline rules absolute host env).blocked = true ∧
    (runPipeline rules absolute host env).protection =
      some { blocked := true, blocked_reason := some "sitemap_403".toList,
             used_bypass_cookie := false } := by
  have hck : buildBypassCookie (matchRule rules host) = Option.none := by
    rw [hr]
    rfl
  have hst : sitemapStage env absolute Option.none =
      { discovered := [], source := DiscSource.none, blocked := true,
        blocked_reason := some (sitemapReason 403) } := by
    simp [sitemapStage, h1]
  have hd : discover env absolute Option.none =
      { discovered := [], source := DiscSource.none, blocked := true,
        blocked_reason := some (sitemapReason 403) } := by
    simp [discover, hst, homepageStage, h2]
  have hreason : sitemapReason 403 = "sitemap_403".toList := by decide
  constructor
  · simp [runPipeline, hck, hd]
  · simp [runPipeline, hck, hd, hreason]

/-- Witness for C4 with an empty rule table and concrete 403 responses. -/
theorem blocked_without_bypass_witness :
    (runPipeline [] "https://acme.io".toList "acme.io".toList
        { sitemap := some { status := 403, text := [] }, sitemapBypass := Option.none,
          homepage := some { status := 403, text := [] }, homepageBypass := Option.none }).blocked
      = true ∧
    (runPipeline [] "https://acme.io".toList "acme.io".toList
        { sitemap := some { status := 403, text := [] }, sitemapBypass := Option.none,
          homepage := some { status := 403, text := [] }, homepageBypass := Option.none }).protection
      = some { blocked := true, blocked_reason := some "sitemap_403".toList,
               used_bypass_cookie := false } :=
  blocked_without_bypass [] "https://acme.io".toList "acme.io".toList [] []
    { sitemap := some { status := 403, text := [] }, sitemapBypass := Option.none,
      homepage := some { status := 403, text := [] }, homepageBypass := Option.none }
    rfl rfl rfl

theorem dropWhile_eq_self_of {p : Char → Bool} {l : Str} (h : ∀ c ∈ l, p c = false) :
    l.dropWhile p = l := by
  cases l with
  | nil => rfl
  | cons x xs => simp [List.dropWhile, h x (List.mem_cons_self x xs)]

theorem takeWhile_eq_self_of {p : Char → Bool} {l : Str} (h : ∀ c ∈ l, p c = true) :
    l.takeWhile p = l := by
  induction l with
  | nil => rfl
  | cons x xs ih =>
    simp [List.takeWhile, h x (List.mem_cons_self x xs),
      ih (fun c hc => h c (List.mem_cons_of_mem x hc))]

theorem dropWhile_eq_nil_of {p : Char → Bool} {l : Str} (h : ∀ c ∈ l, p c = true) :
    l.dropWhile p = [] := by
  induction l with
  | nil => rfl
  | cons x xs ih =>
    simp [List.dropWhile, h x (List.mem_cons_self x xs),
      ih (fun c hc => h c (List.mem_cons_of_mem x hc))]

theorem jsTrim_eq_self {l : Str} (h : ∀ c ∈ l, wsChar c = false) : jsTrim l = l := by
  rw [jsTrim, dropWhile_eq_self_of h,
    dropWhile_eq_self_of (fun c hc => h c (List.mem_reverse.mp hc)), List.reverse_reverse]

theorem stripQuotes_eq_self {l : Str} (h : ∀ c ∈ l, (c == '"') = false) :
    stripQuotes l = l := by
  rw [stripQuotes, dropWhile_eq_self_of h,
    dropWhile_eq_self_of (fun c hc => h c (List.mem_reverse.mp hc)), List.reverse_reverse]

theorem char_ofNat_toNat {m : Nat} (h : m < 55296) : (Char.ofNat m).toNat = m := by
  rw [Char.ofNat, dif_pos (Or.inl h)]
  rfl

theorem char_toLower_toNat_of_upper {c : Char} (h1 : 65 ≤ c.toNat) (h2 : c.toNat ≤ 90) :
    (Char.toLower c).toNat = c.toNat + 32 := by
  rw [Char.toLower, if_pos ⟨h1, h2⟩]
  exact char_ofNat_toNat (by omega)

theorem char_toLower_eq_of_not_upper {c : Char} (h : ¬(65 ≤ c.toNat ∧ c.toNat ≤ 90)) :
    Char.toLower c = c := by
  rw [Char.toLower, if_neg h]

theorem char_toLower_idem (c : Char) : Char.toLower (Char.toLower c) = Char.toLower c := by
  by_cases hup : 65 ≤ c.toNat ∧ c.toNat ≤ 90
  · have hv := char_toLower_toNat_of_upper hup.1 hup.2
    apply char_toLower_eq_of_not_upper
    rw [hv]
    omega
  · rw [char_toLower_eq_of_not_upper hup]
    exact char_toLower_eq_of_not_upper hup

theorem lowerStr_idem (l : Str) : lowerStr (lowerStr l) = lowerStr l := by
  simp only [lowerStr, List.map_map]
  exact List.map_congr_left fun c _ => char_toLower_idem c

theorem hostCharOk_iff {c : Char} :
    hostCharOk c = true ↔ 32 < c.toNat ∧ c.toNat < 127 ∧ c ∉ badHostChars := by
  simp [hostCharOk, List.contains, List.elem_iff, and_assoc]

theorem hostCharOk_of_range {c : Char} (h1 : 96 < c.toNat) (h2 : c.toNat < 123) :
    hostCharOk c = true := by
  rw [hostCharOk_iff]
  refine ⟨by omega, by omega, fun hm => ?_⟩
  simp only [badHostChars, List.mem_cons, List.not_mem_nil, or_false] at hm
  rcases hm with rfl|rfl|rfl|rfl|rfl|rfl|rfl|rfl|rfl|rfl|rfl|rfl|rfl|rfl <;>
    revert h1 h2 <;> decide

theorem hostCharOk_toLower {c : Char} (h : hostCharOk c = true) :
    hostCharOk (Char.toLower c) = true := by
  by_cases hup : 65 ≤ c.toNat ∧ c.toNat ≤ 90
  · have hv := char_toLower_toNat_of_upper hup.1 hup.2
    exact hostCharOk_of_range (by omega) (by omega)
  · rwa [char_toLower_eq_of_not_upper hup]

theorem hostCharOk_ne_bad {c : Char} (h : hostCharOk c = true) {d : Char}
    (hd : d ∈ badHostChars) : c ≠ d := by
  intro hcd
  exact (hostCharOk_iff.mp h).2.2 (hcd ▸ hd)

theorem wsChar_of_hostCharOk {c : Char} (h : hostCharOk c = true) : wsChar c = false := by
  have := (hostCharOk_iff.mp h).1
  simp only [wsChar]
  simp only [Bool.or_eq_false_iff]
  refine ⟨⟨⟨⟨⟨?_,?_⟩,?_⟩,?_⟩,?_⟩,?_⟩ <;> simp [Nat.beq_eq_true_eq] <;> omega

theorem parseAuthority_on_valid (scheme : Str) {l : Str} (hne : l ≠ [])
    (hok : ∀ c ∈ l, hostCharOk c = true) :
    parseAuthority scheme l = some (scheme, lowerStr l) := by
  have hauth : l.takeWhile (fun c => !(authEnd c)) = l :=
    takeWhile_eq_self_of (fun c hc => by
      have h := hok c hc
      simp only [authEnd, Bool.not_eq_true', Bool.or_eq_false_iff, beq_eq_false_iff_ne, ne_eq]
      exact ⟨⟨⟨hostCharOk_ne_bad h (by decide), hostCharOk_ne_bad h (by decide)⟩,
        hostCharOk_ne_bad h (by decide)⟩, hostCharOk_ne_bad h (by decide)⟩)
  have hrev : (l.reverse.takeWhile (fun c => c != '@')).reverse = l := by
    rw [takeWhile_eq_self_of (fun c hc => by
      have h := hok c (List.mem_reverse.mp hc)
      simp only [bne_iff_ne, ne_eq]
      exact hostCharOk_ne_bad h (by decide)), List.reverse_reverse]
  have hhraw : l.takeWhile (fun c => c != ':') = l :=
    takeWhile_eq_self_of (fun c hc => by
      have h := hok c hc
      simp only [bne_iff_ne, ne_eq]
      exact hostCharOk_ne_bad h (by decide))
  have hport : (l.dropWhile (fun c => c != ':')).drop 1 = [] := by
    rw [dropWhile_eq_nil_of (fun c hc => by
      have h := hok c hc
      simp only [bne_iff_ne, ne_eq]
      exact hostCharOk_ne_bad h (by decide))]
    rfl
  have hempty : l.isEmpty = false := by
    cases l with
    | nil => exact absurd rfl hne
    | cons a as => rfl
  have hall : l.all hostCharOk = true := List.all_eq_true.mpr hok
  simp [parseAuthority, hauth, hrev, hhraw, hport, hempty, hall, digitsVal]

theorem parseAuthority_some {scheme rest s hn : Str}
    (heq : parseAuthority scheme rest = some (s, hn)) :
    s = scheme ∧ ∃ hostRaw : Str, hn = lowerStr hostRaw ∧ hostRaw ≠ [] ∧
      ∀ c ∈ hostRaw, hostCharOk c = true := by
  simp only [parseAuthority] at heq
  split at heq
  · exact absurd heq (by simp)
  · split at heq
    · exact absurd heq (by simp)
    · split at heq
      · exact absurd heq (by simp)
      · rename_i h1 h2 h3
        rw [Option.some.injEq, Prod.mk.injEq] at heq
        obtain ⟨hs, hh⟩ := heq
        refine ⟨hs.symm, _, hh.symm, ?_, ?_⟩
        · intro hraw
          rw [hraw] at h1
          simp at h1
        · simp only [Bool.not_eq_true', Bool.not_eq_false] at h2
          exact List.all_eq_true.mp h2

theorem parseHttpUrl_some {u scheme hostname : Str}
    (h : parseHttpUrl u = some (scheme, hostname)) :
    (scheme = "http:".toList ∨ scheme = "https:".toList) ∧ hostname ≠ [] ∧
      (∀ c ∈ hostname, hostCharOk c = true) ∧ lowerStr hostname = hostname := by
  have hfacts : ∀ rest : Str, parseAuthority scheme rest = some (scheme, hostname) →
      hostname ≠ [] ∧ (∀ c ∈ hostname, hostCharOk c = true) ∧ lowerStr hostname = hostname := by
    intro rest heq
    obtain ⟨-, hostRaw, hhn, hne, hok⟩ := parseAuthority_some heq
    refine ⟨?_, ?_, ?_⟩
    · rw [hhn]
      intro hnil
      exact hne (List.map_eq_nil_iff.mp hnil)
    · intro c hc
      rw [hhn] at hc
      obtain ⟨c0, hc0, rfl⟩ := List.mem_map.mp hc
      exact hostCharOk_toLower (hok c0 hc0)
    · rw [hhn]
      exact lowerStr_idem hostRaw
  unfold parseHttpUrl at h
  split at h
  · obtain ⟨hs, -⟩ := parseAuthority_some h
    subst hs
    exact ⟨Or.inr rfl, hfacts _ h⟩
  · split at h
    · obtain ⟨hs, -⟩ := parseAuthority_some h
      subst hs
      exact ⟨Or.inl rfl, hfacts _ h⟩
    · exact absurd h (by simp)

theorem ensureAbsoluteUrl_some {raw : Str} {o : NormalizedOrigin}
    (h : ensureAbsoluteUrl raw = some o) :
    ∃ scheme hostname : Str, (scheme = "http:".toList ∨ scheme = "https:".toList) ∧
      hostname ≠ [] ∧ (∀ c ∈ hostname, hostCharOk c = true) ∧ lowerStr hostname = hostname ∧
      o.absolute = scheme ++ "//".toList ++ hostname ∧
      o.host = lowerStr (if "www.".toList.isPrefixOf (lowerStr hostname)
                         then hostname.drop 4 else hostname) := by
  simp only [ensureAbsoluteUrl] at h
  split at h
  · exact absurd h (by simp)
  · split at h
    · exact absurd h (by simp)
    · rename_i scheme hostname heq
      obtain ⟨hsch, hne, hok, hlow⟩ := parseHttpUrl_some heq
      rw [Option.some.injEq] at h
      exact ⟨scheme, hostname, hsch, hne, hok, hlow, by rw [← h], by rw [← h]⟩

theorem ensureAbsoluteUrl_origin_http {hostname : Str} (hne : hostname ≠ [])
    (hok : ∀ c ∈ hostname, hostCharOk c = true) (hlow : lowerStr hostname = hostname) :
    ensureAbsoluteUrl ("http:".toList ++ "//".toList ++ hostname) =
      some { absolute := "http:".toList ++ "//".toList ++ hostname,
             host := lowerStr (if "www.".toList.isPrefixOf (lowerStr hostname)
                               then hostname.drop 4 else hostname) } := by
  have hform : "http:".toList ++ "//".toList ++ hostname
      = 'h' :: 't' :: 't' :: 'p' :: ':' :: '/' :: '/' ::hostname := rfl
  rw [hform]
  have hws : ∀ c ∈ ('h' :: 't' :: 't' :: 'p' :: ':' :: '/' :: '/' ::hostname), wsChar c = false := by
    intro c hc
    simp only [List.mem_cons] at hc
    rcases hc with rfl|rfl|rfl|rfl|rfl|rfl|rfl|hc
    · decide
    · decide
    · decide
    · decide
    · decide
    · decide
    · decide
    · exact wsChar_of_hostCharOk (hok c hc)
  have hq : ∀ c ∈ ('h' :: 't' :: 't' :: 'p' :: ':' :: '/' :: '/' ::hostname), (c == '"') = false := by
    intro c hc
    simp only [List.mem_cons] at hc
    rcases hc with rfl|rfl|rfl|rfl|rfl|rfl|rfl|hc
    · decide
    · decide
    · decide
    · decide
    · decide
    · decide
    · decide
    · exact beq_eq_false_iff_ne.mpr (hostCharOk_ne_bad (hok c hc) (by decide))
  have c1 : jsTrim ('h' :: 't' :: 't' :: 'p' :: ':' :: '/' :: '/' ::hostname)
      = 'h' :: 't' :: 't' :: 'p' :: ':' :: '/' :: '/' ::hostname := jsTrim_eq_self hws
  have c3 : stripQuotes ('h' :: 't' :: 't' :: 'p' :: ':' :: '/' :: '/' ::hostname)
      = 'h' :: 't' :: 't' :: 'p' :: ':' :: '/' :: '/' ::hostname := stripQuotes_eq_self hq
  have c4 : "//".toList.isPrefixOf ('h' :: 't' :: 't' :: 'p' :: ':' :: '/' :: '/' ::hostname) = false := by
    simp [List.isPrefixOf]
  have c5 : "http://".toList.isPrefixOf (lowerStr ('h' :: 't' :: 't' :: 'p' :: ':' :: '/' :: '/' ::hostname))
      = true := by
    simp [lowerStr, List.isPrefixOf]
  have c5b : "https://".toList.isPrefixOf (lowerStr ('h' :: 't' :: 't' :: 'p' :: ':' :: '/' :: '/' ::hostname))
      = false := by
    simp [lowerStr, List.isPrefixOf]
  have c6 : parseHttpUrl ('h' :: 't' :: 't' :: 'p' :: ':' :: '/' :: '/' ::hostname)
      = some ("http:".toList, hostname) := by
    unfold parseHttpUrl
    rw [if_neg (by rw [c5b]; exact Bool.false_ne_true), if_pos c5]
    rw [show ('h' :: 't' :: 't' :: 'p' :: ':' :: '/' :: '/' ::hostname).drop 7 = hostname from rfl]
    rw [parseAuthority_on_valid _ hne hok, hlow]
  simp only [ensureAbsoluteUrl, c1, c3, c4, c5, c5b, c6, List.isEmpty_cons,
    Bool.false_eq_true, if_false, if_true, Bool.true_or]
  rfl

theorem ensureAbsoluteUrl_origin_https {hostname : Str} (hne : hostname ≠ [])
    (hok : ∀ c ∈ hostname, hostCharOk c = true) (hlow : lowerStr hostname = hostname) :
    ensureAbsoluteUrl ("https:".toList ++ "//".toList ++ hostname) =
      some { absolute := "https:".toList ++ "//".toList ++ hostname,
             host := lowerStr (if "www.".toList.isPrefixOf (lowerStr hostname)
                               then hostname.drop 4 else hostname) } := by
  have hform : "https:".toList ++ "//".toList ++ hostname
      = 'h' :: 't' :: 't' :: 'p' :: 's' :: ':' :: '/' :: '/' ::hostname := rfl
  rw [hform]
  have hws : ∀ c ∈ ('h' :: 't' :: 't' :: 'p' :: 's' :: ':' :: '/' :: '/' ::hostname), wsChar c = false := by
    intro c hc
    simp only [List.mem_cons] at hc
    rcases hc with rfl|rfl|rfl|rfl|rfl|rfl|rfl|rfl|hc
    · decide
    · decide
    · decide
    · decide
    · decide
    · decide
    · decide
    · decide
    · exact wsChar_of_hostCharOk (hok c hc)
  have hq : ∀ c ∈ ('h' :: 't' :: 't' :: 'p' :: 's' :: ':' :: '/' :: '/' ::hostname), (c == '"') = false := by
    intro c hc
    simp only [List.mem_cons] at hc
    rcases hc with rfl|rfl|rfl|rfl|rfl|rfl|rfl|rfl|hc
    · decide
    · decide
    · decide
    · decide
    · decide
    · decide
    · decide
    · decide
    · exact beq_eq_false_iff_ne.mpr (hostCharOk_ne_bad (hok c hc) (by decide))
  have c1 : jsTrim ('h' :: 't' :: 't' :: 'p' :: 's' :: ':' :: '/' :: '/' ::hostname)
      = 'h' :: 't' :: 't' :: 'p' :: 's' :: ':' :: '/' :: '/' ::hostname := jsTrim_eq_self hws
  have c3 : stripQuotes ('h' :: 't' :: 't' :: 'p' :: 's' :: ':' :: '/' :: '/' ::hostname)
      = 'h' :: 't' :: 't' :: 'p' :: 's' :: ':' :: '/' :: '/' ::hostname := stripQuotes_eq_self hq
  have c4 : "//".toList.isPrefixOf ('h' :: 't' :: 't' :: 'p' :: 's' :: ':' :: '/' :: '/' ::hostname) = false := by
    simp [List.isPrefixOf]
  have c5 : "https://".toList.isPrefixOf (lowerStr ('h' :: 't' :: 't' :: 'p' :: 's' :: ':' :: '/' :: '/' ::hostname))
      = true := by
    simp [lowerStr, List.isPrefixOf]
  have c5b : "http://".toList.isPrefixOf (lowerStr ('h' :: 't' :: 't' :: 'p' :: 's' :: ':' :: '/' :: '/' ::hostname))
      = false := by
    simp [lowerStr, List.isPrefixOf]
  have c6 : parseHttpUrl ('h' :: 't' :: 't' :: 'p' :: 's' :: ':' :: '/' :: '/' ::hostname)
      = some ("https:".toList, hostname) := by
    unfold parseHttpUrl
    rw [if_pos c5]
    rw [show ('h' :: 't' :: 't' :: 'p' :: 's' :: ':' :: '/' :: '/' ::hostname).drop 8 = hostname from rfl]
    rw [parseAuthority_on_valid _ hne hok, hlow]
  simp only [ensureAbsoluteUrl, c1, c3, c4, c5, c5b, c6, List.isEmpty_cons,
    Bool.false_eq_true, if_false, if_true, Bool.false_or, Bool.or_true]
  rfl

/-- C8: the URL normalizer is idempotent — normalizing the `absolute` field
of any successful normalization returns the same `absolute` and `host`. -/
theorem ensureAbsoluteUrl_idem {raw : Str} {o : NormalizedOrigin}
    (h : ensureAbsoluteUrl raw = some o) : ensureAbsoluteUrl o.absolute = some o := by
  obtain ⟨scheme, hostname, hsch, hne, hok, hlow, habs, hhost⟩ := ensureAbsoluteUrl_some h
  rcases hsch with rfl | rfl
  · rw [habs, ensureAbsoluteUrl_origin_http hne hok hlow, ← habs, ← hhost]
  · rw [habs, ensureAbsoluteUrl_origin_https hne hok hlow, ← habs, ← hhost]

/-- Witness for C8 at the end-to-end example input. -/
theorem ensureAbsoluteUrl_idem_witness :
    ensureAbsoluteUrl "http://www.acme.io".toList
      = some { absolute := "http://www.acme.io".toList, host := "acme.io".toList } :=
  @ensureAbsoluteUrl_idem "http://WWW.Acme.IO/".toList
    { absolute := "http://www.acme.io".toList, host := "acme.io".toList } (by decide)

example : score "https://x.com/about-pricing".toList = 15 := by decide
example : score "https://x.com/about".toList = 8 := by decide
example : score "https://x.com/pricing".toList = 7 := by decide
example : rankTopK ["https://x.com/pricing".toList, "https://x.com/about".toList] 20
    = ["https://x.com/about".toList, "https://x.com/pricing".toList] := by decide
